import Mathlib

/-!
Verification development for the tvm repository (src/main.go), a Terraform
version manager.  The Go program is shallowly embedded: the network, the
filesystem and the process environment are abstracted as explicit inputs,
and the effectful install/exec pipelines are modelled as functions that
return the trace of observable steps (directory creation, downloads,
printed messages, binary extraction, process replacement).

External library code (the hashicorp go-version package and the Go fmt
formatted-read machinery) is not part of src/ and is modelled from the
spec where noted.
-/

namespace Tvm

/-- Modelled from the spec: the external go-version package (not part of
src/) parses semantic versions that support total ordering and equality.
Versions are modelled as numeric major.minor.patch triples; prerelease
suffixes and variable-length segment lists of the external grammar are not
modelled, and no claim depends on them. -/
structure GoVersion where
  major : Nat
  minor : Nat
  patch : Nat
deriving DecidableEq, Repr

/-- Modelled from the spec: total semantic-version comparison of the
external go-version package, i.e. lexicographic order on the
major.minor.patch segments (method LessThan in the Go source). -/
def GoVersion.LessThan (a b : GoVersion) : Bool :=
  decide (a.major < b.major ∨ (a.major = b.major ∧
    (a.minor < b.minor ∨ (a.minor = b.minor ∧ a.patch < b.patch))))

/-- Rendering of a version, as used in printed messages
(Version.String in the Go source). -/
def GoVersion.render (v : GoVersion) : String :=
  toString v.major ++ "." ++ toString v.minor ++ "." ++ toString v.patch

/-- Split a character list at every dot. -/
def splitDots : List Char → List (List Char)
  | [] => [[]]
  | c :: rest =>
    if c = '.' then [] :: splitDots rest
    else
      match splitDots rest with
      | g :: gs => (c :: g) :: gs
      | [] => [[c]]

/-- Parse a non-empty all-digit character list as a number. -/
def digitsToNat (cs : List Char) : Option Nat :=
  if cs ≠ [] ∧ cs.all Char.isDigit then
    some (cs.foldl (fun n c => 10 * n + (c.toNat - 48)) 0)
  else none

/-- Modelled from the spec: version parsing (version.NewVersion of the
external go-version package); malformed strings are rejected, not
coerced. -/
def NewVersion (s : String) : Option GoVersion :=
  match (splitDots s.toList).mapM digitsToNat with
  | some [a, b, c] => some ⟨a, b, c⟩
  | _ => none

/-- Modelled from the spec: comparator operators of the standard
constraint syntax (e.g. ">= 1.0, < 2.0"). -/
inductive CmpOp where
  | ge | gt | le | lt | eq | ne
deriving DecidableEq, Repr

/-- Modelled from the spec: a single comparator clause of a version
constraint. -/
structure VConstraint where
  op : CmpOp
  target : GoVersion
deriving DecidableEq, Repr

/-- The go-version Constraints value as used by main.go: `none` models the
nil constraint returned by getConstraints when the project declares no
required version. -/
abbrev Constraints : Type := Option (List VConstraint)

/-- Modelled from the spec: satisfaction of one comparator clause. -/
def checkOne (v : GoVersion) (c : VConstraint) : Bool :=
  match c.op with
  | CmpOp.ge => !(v.LessThan c.target)
  | CmpOp.gt => c.target.LessThan v
  | CmpOp.le => !(c.target.LessThan v)
  | CmpOp.lt => v.LessThan c.target
  | CmpOp.eq => decide (v = c.target)
  | CmpOp.ne => decide (v ≠ c.target)

/-- constraints.Check(version): a version satisfies a Constraints value
iff it satisfies every clause; the nil (absent) constraint ranges over no
clauses and therefore accepts every version, exactly as the Go method does
on a nil slice. -/
def Constraints.Check (c : Constraints) (v : GoVersion) : Bool :=
  match c with
  | none => true
  | some cs => cs.all (fun con => checkOne v con)

/-- Modelled from the spec: constraint-string parsing
(version.NewConstraint): comma-separated comparator clauses. -/
def parseConstraintPart (s : String) : Option VConstraint :=
  let t := s.trim
  if t.startsWith ">=" then (NewVersion (t.drop 2).trim).map (fun v => ⟨CmpOp.ge, v⟩)
  else if t.startsWith "<=" then (NewVersion (t.drop 2).trim).map (fun v => ⟨CmpOp.le, v⟩)
  else if t.startsWith "!=" then (NewVersion (t.drop 2).trim).map (fun v => ⟨CmpOp.ne, v⟩)
  else if t.startsWith ">" then (NewVersion (t.drop 1).trim).map (fun v => ⟨CmpOp.gt, v⟩)
  else if t.startsWith "<" then (NewVersion (t.drop 1).trim).map (fun v => ⟨CmpOp.lt, v⟩)
  else if t.startsWith "=" then (NewVersion (t.drop 1).trim).map (fun v => ⟨CmpOp.eq, v⟩)
  else (NewVersion t).map (fun v => ⟨CmpOp.eq, v⟩)

/-- Modelled from the spec: version.NewConstraint. -/
def NewConstraint (s : String) : Option (List VConstraint) :=
  (s.splitOn ",").mapM parseConstraintPart

/-- getConstraints (main.go lines 280-304), with the project configuration
read abstracted into the requiredVersion string argument.  Returns
`some none` (the nil constraint) when the declared string is empty, and
`none` models the log.Fatal taken when constraint parsing fails. -/
def getConstraints (requiredVersion : String) : Option Constraints :=
  if requiredVersion = "" then some none
  else
    match NewConstraint requiredVersion with
    | some cs => some (some cs)
    | none => none

/-- The tfVersion struct (main.go lines 25-30).  URL stands for the path
of the non-nil download location (a ReleaseCandidate used for install has
a non-nil Version and download location per the spec; the exec path builds
records whose URL is never read and is modelled as "").  The optional
checksum locations keep their Go nil-ability. -/
structure TfVersion where
  Version : GoVersion
  URL : String
  ChecksumURL : Option String
  ChecksumSignatureURL : Option String
deriving DecidableEq, Repr

/-- One step of Go sort.Slice insertion: x is inserted into the sorted
prefix, sliding left past exactly the elements it is strictly less than,
i.e. it lands before the first element y with less x y. -/
def goInsert {α : Type} (less : α → α → Bool) (x : α) : List α → List α
  | [] => [x]
  | y :: l => if less x y then x :: y :: l else y :: goInsert less x l

/-- Go sort.Slice with the given comparator closure.  sort.Slice is
comparison-based and unstable; for slices shorter than twelve elements it
runs exactly this insertion sort, and every result below is settled
against this deterministic refinement of its contract. -/
def sortSlice {α : Type} (less : α → α → Bool) (l : List α) : List α :=
  l.foldl (fun acc x => goInsert less x acc) []

/-- sortAsc (main.go lines 256-262): sort.Slice with the ascending
version comparator closure. -/
def sortAsc (tfVersions : List TfVersion) : List TfVersion :=
  sortSlice (fun a b => a.Version.LessThan b.Version) tfVersions

/-- sortDsc (main.go lines 264-270): sort.Slice with the descending
version comparator closure. -/
def sortDsc (tfVersions : List TfVersion) : List TfVersion :=
  sortSlice (fun a b => b.Version.LessThan a.Version) tfVersions

/-- The messages printed by the install and exec paths of main.go, as an
inductive so that distinctness of messages is structural; Msg.text gives
the exact source strings. -/
inductive Msg where
  | noChecksumFound
  | badFormat
  | checksumFailed
  | noneMatched
  | installed (v : GoVersion)
  | binaryMissing (v : GoVersion)
  | noneInstalledMatched
deriving DecidableEq, Repr

/-- The exact message strings of main.go. -/
def Msg.text : Msg → String
  | Msg.noChecksumFound => "No checksum found"
  | Msg.badFormat => "Bad format"
  | Msg.checksumFailed => "Checksum verification failed"
  | Msg.noneMatched => "None of the available Terraform versions matched the constraints"
  | Msg.installed v => "Successfully installed Terraform version " ++ v.render
  | Msg.binaryMissing v =>
      "Found Terraform version " ++ v.render ++ " but Terraform binary is missing"
  | Msg.noneInstalledMatched => "None of the installed Terraform versions matched the constraints"

/-- Outcome of one Fscanf record read of the checksum manifest (main.go
line 379).  The formatted-read machinery is Go library code outside src/,
so its per-record outcomes are modelled from the spec as an ordered record
stream: ok2 is a parsed "hex-digest, two-space, filename" record (n = 2),
badFormat a malformed record reported with err = nil and n different from
2, readError a read failure other than end of stream; end of stream is the
end of the list. -/
inductive ScanRecord where
  | ok2 (digest : List Nat) (filename : String)
  | badFormat
  | readError
deriving DecidableEq, Repr

/-- How the manifest scan loop of install ends. -/
inductive ScanOutcome where
  | proceed
  | abort
  | fatal
deriving DecidableEq, Repr

/-- The manifest scan loop of install (main.go lines 375-404): messages
printed, and whether install proceeds to extraction, returns early
(checksum mismatch) or dies (log.Fatal on a read error).  Reaching the end
of the stream prints "No checksum found" and proceeds; a record whose
filename equals the target compares digests (break on equality, abort on
mismatch); a badFormat record prints "Bad format" and continues; any other
filename continues silently. -/
def scanManifest (computed : List Nat) (target : String) :
    List ScanRecord → List Msg × ScanOutcome
  | [] => ([Msg.noChecksumFound], ScanOutcome.proceed)
  | ScanRecord.ok2 d f :: rest =>
    if f = target then
      if d = computed then ([], ScanOutcome.proceed)
      else ([Msg.checksumFailed], ScanOutcome.abort)
    else scanManifest computed target rest
  | ScanRecord.badFormat :: rest =>
    (Msg.badFormat :: (scanManifest computed target rest).1,
     (scanManifest computed target rest).2)
  | ScanRecord.readError :: _ => ([], ScanOutcome.fatal)

/-- A record the scan loop passes over without terminating: either a
parsed record for a different filename or a malformed record. -/
def skipsRecord (target : String) : ScanRecord → Bool
  | ScanRecord.ok2 _ f => decide (f ≠ target)
  | ScanRecord.badFormat => true
  | ScanRecord.readError => false

/-- path.Base of the Go path package: strip trailing slashes and keep the
last slash-separated element ("." for the empty path, "/" when everything
is a slash). -/
def pathBase (p : String) : String :=
  if p = "" then "."
  else
    let chars := p.toList.reverse.dropWhile (fun c => c == '/')
    if chars = [] then "/"
    else String.mk ((chars.takeWhile (fun c => c != '/')).reverse)

/-- The abstracted environment of one install run: whether the
version-scoped install directory already exists, the manifest records
served at a checksum location, the entry names of the zip archive served
at a download location, and the SHA-256 digest of the downloaded archive
bytes (computed while streaming, main.go lines 352-358). -/
structure Env where
  dirExists : GoVersion → Bool
  manifest : String → List ScanRecord
  zipEntries : String → List String
  digest : String → List Nat

/-- One observable step of the install path. -/
inductive Step where
  | mkdir (v : GoVersion)
  | download (url : String)
  | printMsg (m : Msg)
  | writeBinary (v : GoVersion)
  | fatalError
deriving DecidableEq, Repr

/-- The checksum-verification phase of install (main.go lines 360-406):
a candidate without a checksum location prints "No checksum found" and
proceeds; otherwise the fetched manifest is scanned for the base name of
the archive path. -/
def verifySteps (e : Env) (t : TfVersion) : List Msg × ScanOutcome :=
  match t.ChecksumURL with
  | none => ([Msg.noChecksumFound], ScanOutcome.proceed)
  | some cu => scanManifest (e.digest t.URL) (pathBase t.URL) (e.manifest cu)

/-- The extraction phase of install (main.go lines 408-460): every archive
entry named exactly "terraform" is written into the version-scoped
directory, then the success message is printed. -/
def extract (e : Env) (t : TfVersion) : List Step :=
  ((e.zipEntries t.URL).filter (fun name => name == "terraform")).map
      (fun _ => Step.writeBinary t.Version)
    ++ [Step.printMsg (Msg.installed t.Version)]

/-- What install does after the verification phase: extract on proceed,
return with nothing extracted on a checksum mismatch, die on a read
error. -/
def afterVerify (e : Env) (t : TfVersion) : ScanOutcome → List Step
  | ScanOutcome.proceed => extract e t
  | ScanOutcome.abort => []
  | ScanOutcome.fatal => [Step.fatalError]

/-- Everything install does for the selected candidate after the
existing-directory check: download the archive (unconditionally), verify,
and extract unless verification aborted or died. -/
def installBody (e : Env) (t : TfVersion) : List Step :=
  Step.download t.URL ::
    ((verifySteps e t).1.map Step.printMsg ++ afterVerify e t (verifySteps e t).2)

/-- install for the selected candidate (main.go lines 313-462): the
existing-directory check only suppresses the mkdir, never the download or
the extraction. -/
def installCandidate (e : Env) (t : TfVersion) : List Step :=
  (if e.dirExists t.Version then [] else [Step.mkdir t.Version]) ++ installBody e t

/-- The selection of the install loop (main.go lines 311-312): the first
candidate in descending version order whose Version satisfies the
constraint. -/
def installSelect (tfVersions : List TfVersion) (c : Constraints) : Option TfVersion :=
  (sortDsc tfVersions).find? (fun t => Constraints.Check c t.Version)

/-- install (main.go lines 306-467) with the scraped candidate list, the
parsed constraint and the environment as inputs: handle the first
satisfying candidate and return, or print the no-match message after the
loop. -/
def install (e : Env) (tfVersions : List TfVersion) (c : Constraints) : List Step :=
  match installSelect tfVersions c with
  | some t => installCandidate e t
  | none => [Step.printMsg Msg.noneMatched]

/-- One observable step of the exec path.  execBinary is the successful
syscall.Exec: the process image is replaced (argv is the canonical tool
name followed by the forwarded arguments, the environment is inherited
unchanged) and nothing after it runs. -/
inductive ExecStep where
  | printMsg (m : Msg)
  | execBinary (v : GoVersion) (argv : List String)
  | fatalError
deriving DecidableEq, Repr

/-- The delegation loop of exec (main.go lines 506-526): for the first
version in descending order satisfying the constraint, either replace the
process image, or - when the binary file is missing - print the gap
message, break, and print the trailing no-match message. -/
def execFrom (c : Constraints) (binPresent : GoVersion → Bool) (args : List String) :
    List TfVersion → List ExecStep
  | [] => [ExecStep.printMsg Msg.noneInstalledMatched]
  | t :: rest =>
    if Constraints.Check c t.Version then
      if binPresent t.Version then
        [ExecStep.execBinary t.Version ("terraform" :: args)]
      else
        [ExecStep.printMsg (Msg.binaryMissing t.Version),
         ExecStep.printMsg Msg.noneInstalledMatched]
    else execFrom c binPresent args rest

/-- The install-root scan of exec (main.go lines 488-500): parse every
directory entry name as a Version, building the installed set; none models
the log.Fatal taken as soon as an entry fails to parse. -/
def scanInstalled : List String → Option (List TfVersion)
  | [] => some []
  | name :: rest =>
    match NewVersion name with
    | none => none
    | some v => (scanInstalled rest).map (fun ts =>
        { Version := v, URL := "", ChecksumURL := none,
          ChecksumSignatureURL := none } :: ts)

/-- exec (main.go lines 469-527) with the directory entries of the install
root, the binary-file presence per version, the parsed constraint and the
forwarded arguments as inputs. -/
def exec (binPresent : GoVersion → Bool) (entries : List String) (c : Constraints)
    (args : List String) : List ExecStep :=
  match scanInstalled entries with
  | none => [ExecStep.fatalError]
  | some tfVersions => execFrom c binPresent args (sortDsc tfVersions)

/-- What the top-level dispatch of main decides to run. -/
inductive MainAction where
  | runExec (args : List String)
  | runList
  | runInstall
  | noAction
  | tooFewArgs
deriving DecidableEq, Repr

/-- main (main.go lines 91-123): invoked under the name terraform it
delegates immediately; otherwise the second argv entry selects a
subcommand, an unrecognised entry falls out of the switch and main simply
returns, and fewer than two entries print an error and exit 1. -/
def mainDispatch (arg0 : String) (argsRest : List String) : MainAction :=
  if pathBase arg0 = "terraform" then MainAction.runExec argsRest
  else
    match argsRest with
    | [] => MainAction.tooFewArgs
    | cmd :: cmdArgs =>
      if cmd = "list" then MainAction.runList
      else if cmd = "install" then MainAction.runInstall
      else if cmd = "exec" then MainAction.runExec cmdArgs
      else MainAction.noAction

/-- What main itself prints before any subcommand runs. -/
def mainPrints : MainAction → List String
  | MainAction.tooFewArgs => ["Too few arguments"]
  | _ => []

/-- The process exit status main itself produces when the dispatched
action runs nothing further: noAction falls out of the switch and main
returns normally with status 0, tooFewArgs exits 1. -/
def mainExit : MainAction → Nat
  | MainAction.tooFewArgs => 1
  | _ => 0

/-! Witness fixtures: concrete inputs used to instantiate the theorems
that carry hypotheses. -/

/-- Candidate fixture for the install-selection witness (spec scenario A:
catalog versions 0.12.0, 0.13.0, 1.0.0). -/
def candsW : List TfVersion :=
  [⟨⟨0, 12, 0⟩, "terraform/0.12.0/terraform_0.12.0_linux_amd64.zip", none, none⟩,
   ⟨⟨1, 0, 0⟩, "terraform/1.0.0/terraform_1.0.0_linux_amd64.zip", none, none⟩,
   ⟨⟨0, 13, 0⟩, "terraform/0.13.0/terraform_0.13.0_linux_amd64.zip", none, none⟩]

/-- Constraint fixture ">= 0.13.0, < 1.0.0" for the install-selection
witness. -/
def consW : Constraints := some [⟨CmpOp.ge, ⟨0, 13, 0⟩⟩, ⟨CmpOp.lt, ⟨1, 0, 0⟩⟩]

/-- The candidate of candsW that the install-selection witness selects. -/
def tSelW : TfVersion :=
  ⟨⟨0, 13, 0⟩, "terraform/0.13.0/terraform_0.13.0_linux_amd64.zip", none, none⟩

/-- Environment fixture for the install-selection witness. -/
def envW : Env :=
  { dirExists := fun _ => false
    manifest := fun _ => []
    zipEntries := fun _ => ["terraform"]
    digest := fun _ => [0] }

/-- Environment fixture for the checksum-mismatch witness: the served
manifest has a malformed first record and a matching record whose digest
differs from the digest of the downloaded bytes. -/
def envMismatch : Env :=
  { dirExists := fun _ => false
    manifest := fun _ => [ScanRecord.badFormat,
      ScanRecord.ok2 [222] "terraform_0.12.0_linux_amd64.zip"]
    zipEntries := fun _ => ["terraform"]
    digest := fun _ => [111] }

/-- Candidate fixture for the checksum-mismatch witness. -/
def tfMismatch : TfVersion :=
  ⟨⟨0, 12, 0⟩, "terraform/0.12.0/terraform_0.12.0_linux_amd64.zip", some "sums", none⟩

/-- Environment fixture for the no-checksum-record witness: the manifest
holds only records for other filenames and a malformed record. -/
def envNoRecord : Env :=
  { dirExists := fun _ => true
    manifest := fun _ => [ScanRecord.ok2 [7] "terraform_0.12.0_darwin_amd64.zip",
      ScanRecord.badFormat]
    zipEntries := fun _ => ["terraform"]
    digest := fun _ => [111] }

/-- Candidate fixture for the no-checksum-record witness. -/
def tfNoRecord : TfVersion :=
  ⟨⟨0, 12, 0⟩, "terraform/0.12.0/terraform_0.12.0_linux_amd64.zip", some "sums", none⟩

/-! Order lemmas for the modelled semantic-version comparison. -/

/-- Version comparison is irreflexive. -/
theorem GoVersion.lt_irrefl (a : GoVersion) : a.LessThan a = false := by
  cases a
  simp [GoVersion.LessThan]

/-- Version comparison is asymmetric. -/
theorem GoVersion.lt_asymm {a b : GoVersion} (h : a.LessThan b = true) :
    b.LessThan a = false := by
  cases a
  cases b
  simp [GoVersion.LessThan] at h ⊢
  omega

/-- Version comparison is transitive. -/
theorem GoVersion.lt_trans {a b c : GoVersion} (h1 : a.LessThan b = true)
    (h2 : b.LessThan c = true) : a.LessThan c = true := by
  cases a
  cases b
  cases c
  simp [GoVersion.LessThan] at h1 h2 ⊢
  omega

/-- Version comparison is total: distinct versions compare strictly in
one direction. -/
theorem GoVersion.lt_total {a b : GoVersion} (h : a ≠ b) :
    a.LessThan b = true ∨ b.LessThan a = true := by
  cases a
  cases b
  simp [GoVersion.mk.injEq] at h
  simp [GoVersion.LessThan]
  omega

/-! Generic lemmas about the sort.Slice model. -/

/-- Inserting into the sorted prefix permutes consing. -/
theorem goInsert_perm {α : Type} (less : α → α → Bool) (x : α) (l : List α) :
    (goInsert less x l).Perm (x :: l) := by
  induction l with
  | nil => exact List.Perm.refl _
  | cons y t ih =>
    simp only [goInsert]
    by_cases h : less x y = true
    · rw [if_pos h]
    · rw [if_neg h]
      exact (ih.cons y).trans (List.Perm.swap x y t)

/-- The sort.Slice model returns a permutation of its input. -/
theorem sortSlice_perm {α : Type} (less : α → α → Bool) (l : List α) :
    (sortSlice less l).Perm l := by
  have key : ∀ (l acc : List α),
      (l.foldl (fun acc x => goInsert less x acc) acc).Perm (acc ++ l) := by
    intro l
    induction l with
    | nil => intro acc; simp
    | cons x t ih =>
      intro acc
      simp only [List.foldl_cons]
      exact ((ih (goInsert less x acc)).trans
        ((goInsert_perm less x acc).append_right t)).trans List.perm_middle.symm
  simpa using key l []

/-- Inserting preserves sortedness (stated as: no later element is
strictly below an earlier one). -/
theorem goInsert_pairwise {α : Type} {less : α → α → Bool}
    (hasymm : ∀ a b, less a b = true → less b a = false)
    (htrans : ∀ a b c, less a b = true → less b c = true → less a c = true)
    (x : α) (l : List α) (hl : l.Pairwise (fun a b => less b a = false)) :
    (goInsert less x l).Pairwise (fun a b => less b a = false) := by
  induction l with
  | nil => simp [goInsert]
  | cons y t ih =>
    rw [List.pairwise_cons] at hl
    obtain ⟨hy, ht⟩ := hl
    cases hxy : less x y with
    | true =>
      simp only [goInsert, hxy, if_true]
      refine List.Pairwise.cons ?_ (List.pairwise_cons.mpr ⟨hy, ht⟩)
      intro z hz
      rcases List.mem_cons.mp hz with rfl | hz
      · exact hasymm _ _ hxy
      · cases hzx : less z x with
        | false => rfl
        | true =>
          have : less z y = true := htrans _ _ _ hzx hxy
          rw [hy z hz] at this
          exact absurd this (by simp)
    | false =>
      simp only [goInsert, hxy, if_false]
      refine List.Pairwise.cons ?_ (ih ht)
      intro z hz
      rcases List.mem_cons.mp ((goInsert_perm less x t).mem_iff.mp hz) with h | h
      · subst h
        exact hxy
      · exact hy z h

/-- The sort.Slice model sorts: no later element is strictly below an
earlier one under the comparator. -/
theorem sortSlice_pairwise {α : Type} {less : α → α → Bool}
    (hasymm : ∀ a b, less a b = true → less b a = false)
    (htrans : ∀ a b c, less a b = true → less b c = true → less a c = true)
    (l : List α) :
    (sortSlice less l).Pairwise (fun a b => less b a = false) := by
  have key : ∀ (l acc : List α), acc.Pairwise (fun a b => less b a = false) →
      (l.foldl (fun acc x => goInsert less x acc) acc).Pairwise
        (fun a b => less b a = false) := by
    intro l
    induction l with
    | nil => intro acc h; simpa using h
    | cons x t ih =>
      intro acc h
      simp only [List.foldl_cons]
      exact ih _ (goInsert_pairwise hasymm htrans x acc h)
  exact key l [] (List.Pairwise.nil)

/-- When nothing in the list triggers the comparator, insertion appends at
the end. -/
theorem goInsert_eq_append {α : Type} (less : α → α → Bool) (x : α) (s : List α)
    (h : ∀ z ∈ s, less x z = false) : goInsert less x s = s ++ [x] := by
  induction s with
  | nil => rfl
  | cons z t ih =>
    have hz := h z (List.mem_cons_self z t)
    simp [goInsert, hz, ih (fun w hw => h w (List.mem_cons_of_mem z hw))]

/-- When the final element triggers the comparator, insertion into the
extended list keeps that element last. -/
theorem goInsert_concat_of_less {α : Type} (less : α → α → Bool) (x y : α)
    (s : List α) (h : less x y = true) :
    goInsert less x (s ++ [y]) = goInsert less x s ++ [y] := by
  induction s with
  | nil => simp [goInsert, h]
  | cons z t ih =>
    cases hxz : less x z with
    | true => simp [goInsert, hxz]
    | false => simp [goInsert, hxz, ih]

/-- Reversal swaps ascending insertion for descending insertion, for an
element strictly comparable with everything in the sorted list. -/
theorem goInsert_reverse {α : Type} {less : α → α → Bool}
    (hasymm : ∀ a b, less a b = true → less b a = false)
    (htrans : ∀ a b c, less a b = true → less b c = true → less a c = true)
    (x : α) (s : List α) (hs : s.Pairwise (fun a b => less b a = false))
    (hcomp : ∀ y ∈ s, less x y = true ∨ less y x = true) :
    (goInsert less x s).reverse = goInsert (fun a b => less b a) x s.reverse := by
  induction s with
  | nil => rfl
  | cons y t ih =>
    rw [List.pairwise_cons] at hs
    obtain ⟨hy, ht⟩ := hs
    cases hxy : less x y with
    | true =>
      have hall : ∀ z ∈ (t.reverse ++ [y]), less z x = false := by
        intro z hz
        rcases List.mem_append.mp hz with hz | hz
        · rw [List.mem_reverse] at hz
          cases hzx : less z x with
          | false => rfl
          | true =>
            have : less z y = true := htrans _ _ _ hzx hxy
            rw [hy z hz] at this
            exact absurd this (by simp)
        · rw [List.mem_singleton] at hz
          subst hz
          exact hasymm _ _ hxy
      have h1 : goInsert less x (y :: t) = x :: y :: t := by
        simp [goInsert, hxy]
      rw [h1]
      simp only [List.reverse_cons]
      rw [goInsert_eq_append (fun a b => less b a) x (t.reverse ++ [y]) hall]
    | false =>
      have hyx : less y x = true := by
        cases hcomp y (List.mem_cons_self y t) with
        | inl h => rw [hxy] at h; exact absurd h (by simp)
        | inr h => exact h
      have h1 : goInsert less x (y :: t) = y :: goInsert less x t := by
        simp [goInsert, hxy]
      rw [h1]
      have h2 := ih ht (fun z hz => hcomp z (List.mem_cons_of_mem y hz))
      simp only [List.reverse_cons]
      rw [h2]
      rw [goInsert_concat_of_less (fun a b => less b a) x y t.reverse hyx]

/-- For inputs whose elements are pairwise strictly comparable, sorting
with the flipped comparator reverses sorting with the comparator. -/
theorem sortSlice_reverse {α : Type} {less : α → α → Bool}
    (hasymm : ∀ a b, less a b = true → less b a = false)
    (htrans : ∀ a b c, less a b = true → less b c = true → less a c = true)
    (l : List α)
    (hl : l.Pairwise (fun a b => less a b = true ∨ less b a = true)) :
    (sortSlice less l).reverse = sortSlice (fun a b => less b a) l := by
  induction l using List.reverseRecOn with
  | nil => rfl
  | append_singleton t x ih =>
    rw [List.pairwise_append] at hl
    obtain ⟨hpt, _, hmix⟩ := hl
    have hstep : ∀ (less' : α → α → Bool), sortSlice less' (t ++ [x])
        = goInsert less' x (sortSlice less' t) := by
      intro less'
      simp [sortSlice, List.foldl_append]
    rw [hstep less, hstep (fun a b => less b a)]
    rw [goInsert_reverse hasymm htrans x (sortSlice less t)
      (sortSlice_pairwise hasymm htrans t) ?_]
    · rw [ih hpt]
    · intro y hy
      have hyt : y ∈ t := (sortSlice_perm less t).subset hy
      rcases hmix y hyt x (List.mem_singleton_self x) with h | h
      · exact Or.inr h
      · exact Or.inl h

/-! Helper lemmas about selection and the manifest scan. -/

/-- In a descending-sorted list, the first element accepted by the
predicate is maximal among accepted elements. -/
theorem find_first_max {p : TfVersion → Bool} :
    ∀ (L : List TfVersion) (t : TfVersion),
      L.Pairwise (fun a b => a.Version.LessThan b.Version = false) →
      L.find? p = some t →
      ∀ u ∈ L, p u = true → t.Version.LessThan u.Version = false := by
  intro L
  induction L with
  | nil => intro t _ hf; simp [List.find?] at hf
  | cons x L' ih =>
    intro t hp hf u hu hpu
    rw [List.pairwise_cons] at hp
    obtain ⟨hx, hp'⟩ := hp
    cases hpx : p x with
    | true =>
      rw [List.find?_cons_of_pos _ hpx] at hf
      injection hf with hf
      subst hf
      rcases List.mem_cons.mp hu with rfl | hu
      · exact GoVersion.lt_irrefl _
      · exact hx u hu
    | false =>
      rw [List.find?_cons_of_neg _ (by simp [hpx])] at hf
      rcases List.mem_cons.mp hu with rfl | hu
      · rw [hpx] at hpu; exact absurd hpu (by simp)
      · exact ih t hp' hf u hu hpu

/-- Every message the manifest scan prints is one of the three scan
messages. -/
theorem scanManifest_msg_cases (computed : List Nat) (target : String) :
    ∀ (rs : List ScanRecord) (m : Msg), m ∈ (scanManifest computed target rs).1 →
      m = Msg.noChecksumFound ∨ m = Msg.badFormat ∨ m = Msg.checksumFailed := by
  intro rs
  induction rs with
  | nil =>
    intro m hm
    simp [scanManifest] at hm
    exact Or.inl hm
  | cons r rest ih =>
    intro m hm
    cases r with
    | ok2 d f =>
      by_cases hf : f = target
      · by_cases hd : d = computed
        · simp [scanManifest, hf, hd] at hm
        · simp [scanManifest, hf, hd] at hm
          exact Or.inr (Or.inr hm)
      · simp only [scanManifest, if_neg hf] at hm
        exact ih m hm
    | badFormat =>
      simp only [scanManifest, List.mem_cons] at hm
      rcases hm with rfl | hm
      · exact Or.inr (Or.inl rfl)
      · exact ih m hm
    | readError => simp [scanManifest] at hm

/-- A scan over records that all skip ends at the end of the stream:
it warns "No checksum found" and proceeds. -/
theorem scanManifest_skips (computed : List Nat) (target : String) :
    ∀ (records : List ScanRecord), (∀ r ∈ records, skipsRecord target r = true) →
      (scanManifest computed target records).2 = ScanOutcome.proceed
      ∧ Msg.noChecksumFound ∈ (scanManifest computed target records).1 := by
  intro records
  induction records with
  | nil => intro _; simp [scanManifest]
  | cons r rest ih =>
    intro h
    have hr := h r (List.mem_cons_self r rest)
    have hrest := ih (fun x hx => h x (List.mem_cons_of_mem r hx))
    cases r with
    | ok2 d f =>
      have hf : f ≠ target := by simpa [skipsRecord] using hr
      simpa only [scanManifest, if_neg hf] using hrest
    | badFormat =>
      simp only [scanManifest]
      exact ⟨hrest.1, List.mem_cons_of_mem _ hrest.2⟩
    | readError => simp [skipsRecord] at hr

/-- A scan that reaches a matching record with a differing digest aborts
with the verification-failure message. -/
theorem scanManifest_abort_of (computed : List Nat) (target : String) :
    ∀ (pre post : List ScanRecord) (d : List Nat),
      (∀ r ∈ pre, skipsRecord target r = true) → d ≠ computed →
      (scanManifest computed target (pre ++ ScanRecord.ok2 d target :: post)).2
          = ScanOutcome.abort
      ∧ Msg.checksumFailed
          ∈ (scanManifest computed target (pre ++ ScanRecord.ok2 d target :: post)).1 := by
  intro pre
  induction pre with
  | nil =>
    intro post d hpre hd
    simp [scanManifest, hd]
  | cons r pre' ih =>
    intro post d hpre hd
    have hr := hpre r (List.mem_cons_self r pre')
    have hrest := ih post d (fun x hx => hpre x (List.mem_cons_of_mem r hx)) hd
    cases r with
    | ok2 d' f =>
      have hf : f ≠ target := by simpa [skipsRecord] using hr
      simpa only [List.cons_append, scanManifest, if_neg hf] using hrest
    | badFormat =>
      simp only [List.cons_append, scanManifest]
      exact ⟨hrest.1, List.mem_cons_of_mem _ hrest.2⟩
    | readError => simp [skipsRecord] at hr

/-- The no-match message of the install loop is never printed while a
selected candidate is being handled. -/
theorem noneMatched_not_in_installCandidate (e : Env) (t : TfVersion) :
    Step.printMsg Msg.noneMatched ∉ installCandidate e t := by
  intro hmem
  rcases List.mem_append.mp hmem with h | h
  · by_cases hd : e.dirExists t.Version
    · rw [if_pos hd] at h; simp at h
    · rw [if_neg hd] at h; simp at h
  · rcases List.mem_cons.mp h with h | h
    · simp at h
    · rcases List.mem_append.mp h with h | h
      · rcases List.mem_map.mp h with ⟨m, hm, hEq⟩
        have hm' : m = Msg.noneMatched := by
          simpa using hEq
        subst hm'
        cases hcu : t.ChecksumURL with
        | none =>
          rw [verifySteps, hcu] at hm
          simp at hm
        | some cu =>
          rw [verifySteps, hcu] at hm
          rcases scanManifest_msg_cases _ _ _ _ hm with h' | h' | h' <;> exact absurd h' (by simp)
      · cases hout : (verifySteps e t).2 with
        | proceed =>
          rw [hout] at h
          simp only [afterVerify] at h
          rcases List.mem_append.mp h with h' | h'
          · rcases List.mem_map.mp h' with ⟨n, _, hEq⟩
            exact absurd hEq (by simp)
          · simp at h'
        | abort =>
          rw [hout] at h
          simp [afterVerify] at h
        | fatal =>
          rw [hout] at h
          simp [afterVerify] at h

/-- Handling a candidate whose verification proceeds: the install trace is
mkdir (unless the directory exists), download, the scan messages, then
extraction. -/
theorem installCandidate_proceed (e : Env) (t : TfVersion)
    (h2 : (verifySteps e t).2 = ScanOutcome.proceed) :
    installCandidate e t
      = (if e.dirExists t.Version then [] else [Step.mkdir t.Version])
        ++ (Step.download t.URL ::
            ((verifySteps e t).1.map Step.printMsg ++ extract e t)) := by
  unfold installCandidate installBody
  rw [h2]
  rfl

/-- Handling a candidate whose verification aborts: the install trace ends
with the scan messages; nothing is extracted. -/
theorem installCandidate_abort (e : Env) (t : TfVersion)
    (h2 : (verifySteps e t).2 = ScanOutcome.abort) :
    installCandidate e t
      = (if e.dirExists t.Version then [] else [Step.mkdir t.Version])
        ++ (Step.download t.URL :: ((verifySteps e t).1.map Step.printMsg ++ [])) := by
  unfold installCandidate installBody
  rw [h2]
  rfl

/-- The shared conclusions of the two warning outcomes of claim C6. -/
theorem proceed_mems (e : Env) (t : TfVersion)
    (h2 : (verifySteps e t).2 = ScanOutcome.proceed)
    (h1 : Msg.noChecksumFound ∈ (verifySteps e t).1) :
    Step.printMsg Msg.noChecksumFound ∈ installCandidate e t
    ∧ Step.printMsg (Msg.installed t.Version) ∈ installCandidate e t
    ∧ Step.fatalError ∉ installCandidate e t := by
  rw [installCandidate_proceed e t h2]
  refine ⟨?_, ?_, ?_⟩
  · exact List.mem_append_right _ (List.mem_cons_of_mem _
      (List.mem_append_left _ (List.mem_map_of_mem _ h1)))
  · refine List.mem_append_right _ (List.mem_cons_of_mem _ (List.mem_append_right _ ?_))
    exact List.mem_append_right _ (List.mem_singleton_self _)
  · intro hmem
    rcases List.mem_append.mp hmem with h | h
    · by_cases hd : e.dirExists t.Version
      · rw [if_pos hd] at h; simp at h
      · rw [if_neg hd] at h; simp at h
    · rcases List.mem_cons.mp h with h | h
      · simp at h
      · rcases List.mem_append.mp h with h | h
        · rcases List.mem_map.mp h with ⟨m, _, hEq⟩
          exact absurd hEq (by simp)
        · rcases List.mem_append.mp h with h | h
          · rcases List.mem_map.mp h with ⟨n, _, hEq⟩
            exact absurd hEq (by simp)
          · simp at h

/-! Claim theorems. -/

/-- C1. Install-path selection scans the candidates in descending version
order and returns the first satisfying candidate; a returned candidate
satisfies the constraint and carries the maximum satisfying Version, and
the distinguished no-match message (not an error) is printed exactly when
no candidate satisfies the constraint. -/
theorem install_selects_max (e : Env) (l : List TfVersion) (c : Constraints) :
    (∀ t, installSelect l c = some t →
        t ∈ l ∧ Constraints.Check c t.Version = true ∧
        ∀ u ∈ l, Constraints.Check c u.Version = true →
          t.Version.LessThan u.Version = false)
    ∧ (installSelect l c = none ↔ ∀ u ∈ l, Constraints.Check c u.Version = false)
    ∧ (Step.printMsg Msg.noneMatched ∈ install e l c ↔ installSelect l c = none)
    ∧ Msg.text Msg.noneMatched
        = "None of the available Terraform versions matched the constraints" := by
  have hperm : (sortDsc l).Perm l :=
    sortSlice_perm (fun a b : TfVersion => b.Version.LessThan a.Version) l
  have hsort : (sortDsc l).Pairwise
      (fun a b => a.Version.LessThan b.Version = false) :=
    @sortSlice_pairwise TfVersion (fun a b => b.Version.LessThan a.Version)
      (fun a b h => GoVersion.lt_asymm h)
      (fun a b c h1 h2 => GoVersion.lt_trans h2 h1) l
  refine ⟨?_, ⟨?_, ?_⟩, ?_, rfl⟩
  · intro t ht
    have ht' : (sortDsc l).find? (fun u => Constraints.Check c u.Version) = some t := ht
    refine ⟨hperm.subset (List.mem_of_find?_eq_some ht'), ?_, ?_⟩
    · simpa using List.find?_some ht'
    · intro u hu hcu
      exact find_first_max (sortDsc l) t hsort ht' u (hperm.mem_iff.mpr hu) hcu
  · intro h u hu
    have h' : (sortDsc l).find? (fun u => Constraints.Check c u.Version) = none := h
    have h2 := List.find?_eq_none.mp h' u (hperm.mem_iff.mpr hu)
    simpa using h2
  · intro h
    show (sortDsc l).find? (fun u => Constraints.Check c u.Version) = none
    apply List.find?_eq_none.mpr
    intro x hx
    simp [h x (hperm.subset hx)]
  · cases hsel : installSelect l c with
    | none => simp [install, hsel]
    | some t => simp [install, hsel, noneMatched_not_in_installCandidate e t]

/-- C1 witness: spec scenario A, constraint ">= 0.13.0, < 1.0.0" over
candidates 0.12.0, 1.0.0, 0.13.0 selects 0.13.0. -/
theorem install_selects_max_witness :
    tSelW ∈ candsW
    ∧ Constraints.Check consW tSelW.Version = true
    ∧ ∀ u ∈ candsW, Constraints.Check consW u.Version = true →
        tSelW.Version.LessThan u.Version = false :=
  (install_selects_max envW candsW consW).1 tSelW (by decide)

/-- C2 (amended). sortAsc and sortDsc return sorted permutations of the
input consistent with the total semantic-version comparison, and on inputs
whose candidates carry pairwise distinct Versions they are exact reverses
of one another; with equal Versions the exact-reverse identity can fail
(see the counterexample). -/
theorem sort_consistent_and_reverse (l : List TfVersion) :
    (sortAsc l).Perm l
    ∧ (sortDsc l).Perm l
    ∧ (sortAsc l).Pairwise (fun a b => b.Version.LessThan a.Version = false)
    ∧ (sortDsc l).Pairwise (fun a b => a.Version.LessThan b.Version = false)
    ∧ (l.Pairwise (fun a b => a.Version ≠ b.Version) →
        sortAsc l = (sortDsc l).reverse) := by
  refine ⟨sortSlice_perm (fun a b : TfVersion => a.Version.LessThan b.Version) l,
    sortSlice_perm (fun a b : TfVersion => b.Version.LessThan a.Version) l,
    @sortSlice_pairwise TfVersion (fun a b => a.Version.LessThan b.Version)
      (fun a b h => GoVersion.lt_asymm h)
      (fun a b c h1 h2 => GoVersion.lt_trans h1 h2) l,
    @sortSlice_pairwise TfVersion (fun a b => b.Version.LessThan a.Version)
      (fun a b h => GoVersion.lt_asymm h)
      (fun a b c h1 h2 => GoVersion.lt_trans h2 h1) l, ?_⟩
  intro hd
  have hcomp : l.Pairwise (fun a b : TfVersion =>
      (a.Version.LessThan b.Version) = true
      ∨ (b.Version.LessThan a.Version) = true) :=
    hd.imp (fun h => GoVersion.lt_total h)
  have h2 : (sortAsc l).reverse = sortDsc l :=
    @sortSlice_reverse TfVersion (fun a b => a.Version.LessThan b.Version)
      (fun a b h => GoVersion.lt_asymm h)
      (fun a b c h1 h2 => GoVersion.lt_trans h1 h2) l hcomp
  rw [← h2, List.reverse_reverse]

/-- C2 counterexample: two candidates with equal Versions but distinct
download locations; Go sort.Slice (insertion sort at this length) leaves
both orders identical, so the ascending order is not the reverse of the
descending order. -/
theorem sort_reverse_cex :
    sortAsc [⟨⟨1, 0, 0⟩, "a", none, none⟩, ⟨⟨1, 0, 0⟩, "b", none, none⟩]
      ≠ (sortDsc [⟨⟨1, 0, 0⟩, "a", none, none⟩,
          ⟨⟨1, 0, 0⟩, "b", none, none⟩]).reverse := by decide

/-- C2 witness: on a two-candidate input with distinct Versions the exact
reverse identity holds. -/
theorem sort_consistent_and_reverse_witness :
    sortAsc [⟨⟨1, 0, 0⟩, "a", none, none⟩, ⟨⟨0, 13, 0⟩, "b", none, none⟩]
      = (sortDsc [⟨⟨1, 0, 0⟩, "a", none, none⟩,
          ⟨⟨0, 13, 0⟩, "b", none, none⟩]).reverse :=
  (sort_consistent_and_reverse _).2.2.2.2 (by decide)

/-- C3. When the manifest scan reaches a record whose filename equals the
base name of the archive path but whose digest differs from the computed
digest of the downloaded bytes, install prints the verification-failure
message and returns before extraction: no binary is written and no success
message is printed. -/
theorem checksum_mismatch_aborts (e : Env) (t : TfVersion) (cu : String)
    (pre post : List ScanRecord) (d : List Nat)
    (hcu : t.ChecksumURL = some cu)
    (hman : e.manifest cu = pre ++ ScanRecord.ok2 d (pathBase t.URL) :: post)
    (hpre : ∀ r ∈ pre, skipsRecord (pathBase t.URL) r = true)
    (hd : d ≠ e.digest t.URL) :
    Step.printMsg Msg.checksumFailed ∈ installCandidate e t
    ∧ (∀ v : GoVersion, Step.writeBinary v ∉ installCandidate e t)
    ∧ Step.printMsg (Msg.installed t.Version) ∉ installCandidate e t := by
  have hv : verifySteps e t
      = scanManifest (e.digest t.URL) (pathBase t.URL)
          (pre ++ ScanRecord.ok2 d (pathBase t.URL) :: post) := by
    simp [verifySteps, hcu, hman]
  obtain ⟨ho, hm⟩ :=
    scanManifest_abort_of (e.digest t.URL) (pathBase t.URL) pre post d hpre hd
  have ho' : (verifySteps e t).2 = ScanOutcome.abort := by rw [hv]; exact ho
  have hm' : Msg.checksumFailed ∈ (verifySteps e t).1 := by rw [hv]; exact hm
  rw [installCandidate_abort e t ho']
  refine ⟨?_, ?_, ?_⟩
  · exact List.mem_append_right _ (List.mem_cons_of_mem _
      (List.mem_append_left _ (List.mem_map_of_mem _ hm')))
  · intro v hmem
    rcases List.mem_append.mp hmem with h | h
    · by_cases hdir : e.dirExists t.Version
      · rw [if_pos hdir] at h; simp at h
      · rw [if_neg hdir] at h; simp at h
    · rcases List.mem_cons.mp h with h | h
      · simp at h
      · rcases List.mem_append.mp h with h | h
        · rcases List.mem_map.mp h with ⟨m, _, hEq⟩
          exact absurd hEq (by simp)
        · simp at h
  · intro hmem
    rcases List.mem_append.mp hmem with h | h
    · by_cases hdir : e.dirExists t.Version
      · rw [if_pos hdir] at h; simp at h
      · rw [if_neg hdir] at h; simp at h
    · rcases List.mem_cons.mp h with h | h
      · simp at h
      · rcases List.mem_append.mp h with h | h
        · rcases List.mem_map.mp h with ⟨m, hmm, hEq⟩
          have : m = Msg.installed t.Version := by simpa using hEq
          subst this
          rcases scanManifest_msg_cases _ _ _ _ (by rw [hv] at hmm; exact hmm)
            with h' | h' | h' <;> exact absurd h' (by simp)
        · simp at h

/-- C3 witness: a manifest whose first record is malformed and whose
second record matches the archive base name with a wrong digest. -/
theorem checksum_mismatch_aborts_witness :
    Step.printMsg Msg.checksumFailed ∈ installCandidate envMismatch tfMismatch
    ∧ (∀ v : GoVersion, Step.writeBinary v ∉ installCandidate envMismatch tfMismatch)
    ∧ Step.printMsg (Msg.installed tfMismatch.Version)
        ∉ installCandidate envMismatch tfMismatch :=
  checksum_mismatch_aborts envMismatch tfMismatch "sums"
    [ScanRecord.badFormat] [] [222] rfl (by decide) (by decide) (by decide)

/-- C4. A malformed manifest record is reported with the "Bad format"
message and the scan continues with the remaining records; over any
manifest whose records all parse or are merely malformed (no read error),
the scan never terminates the process, ending only on a filename match or
the end of the stream. -/
theorem bad_format_continues (computed : List Nat) (target : String)
    (rest : List ScanRecord) :
    scanManifest computed target (ScanRecord.badFormat :: rest)
      = (Msg.badFormat :: (scanManifest computed target rest).1,
         (scanManifest computed target rest).2)
    ∧ ∀ records : List ScanRecord, (∀ r ∈ records, r ≠ ScanRecord.readError) →
        (scanManifest computed target records).2 ≠ ScanOutcome.fatal := by
  refine ⟨rfl, ?_⟩
  intro records
  induction records with
  | nil => intro _; simp [scanManifest]
  | cons r rs ih =>
    intro h
    cases r with
    | ok2 d f =>
      by_cases hf : f = target
      · by_cases hd : d = computed <;> simp [scanManifest, hf, hd]
      · simp only [scanManifest, if_neg hf]
        exact ih (fun x hx => h x (List.mem_cons_of_mem _ hx))
    | badFormat =>
      simp only [scanManifest]
      exact ih (fun x hx => h x (List.mem_cons_of_mem _ hx))
    | readError => exact absurd rfl (h _ (List.mem_cons_self _ _))

/-- C4 witness: a malformed record is reported and scanned past, and a
read-error-free manifest never produces the fatal outcome. -/
theorem bad_format_continues_witness :
    scanManifest [111] "f.zip" [ScanRecord.badFormat]
      = ([Msg.badFormat, Msg.noChecksumFound], ScanOutcome.proceed)
    ∧ (scanManifest [111] "f.zip"
        [ScanRecord.badFormat, ScanRecord.ok2 [111] "f.zip"]).2 ≠ ScanOutcome.fatal :=
  ⟨(bad_format_continues [111] "f.zip" []).1,
   (bad_format_continues [111] "f.zip" []).2
     [ScanRecord.badFormat, ScanRecord.ok2 [111] "f.zip"] (by decide)⟩

/-- C5 counterexample: install root entries 1.0.0 (binary missing) and
0.13.0 (binary present) under constraint ">= 0.13.0": exec reports the
missing binary of 1.0.0 and then prints the no-match message; the trace
holds no process replacement, so 0.13.0 is never executed. -/
theorem exec_no_fallback_cex :
    exec (fun v => decide (v = ⟨0, 13, 0⟩)) ["1.0.0", "0.13.0"]
        (some [⟨CmpOp.ge, ⟨0, 13, 0⟩⟩]) []
      = [ExecStep.printMsg (Msg.binaryMissing ⟨1, 0, 0⟩),
         ExecStep.printMsg Msg.noneInstalledMatched] := by decide

/-- C5 (amended). When the first version in descending order satisfying
the constraint has its binary missing, exec reports the gap, breaks out of
the loop and prints the no-installed-version-matched message; the
remaining versions (whatever they are) are never tried. -/
theorem exec_missing_binary_stops (c : Constraints) (binPresent : GoVersion → Bool)
    (args : List String) (t : TfVersion) (rest : List TfVersion)
    (hc : Constraints.Check c t.Version = true)
    (hb : binPresent t.Version = false) :
    execFrom c binPresent args (t :: rest)
      = [ExecStep.printMsg (Msg.binaryMissing t.Version),
         ExecStep.printMsg Msg.noneInstalledMatched] := by
  simp [execFrom, hc, hb]

/-- C5 witness: the scenario of the counterexample, applied to the sorted
installed list. -/
theorem exec_missing_binary_stops_witness :
    execFrom (some [⟨CmpOp.ge, ⟨0, 13, 0⟩⟩]) (fun v => decide (v = ⟨0, 13, 0⟩)) []
        [⟨⟨1, 0, 0⟩, "", none, none⟩, ⟨⟨0, 13, 0⟩, "", none, none⟩]
      = [ExecStep.printMsg (Msg.binaryMissing ⟨1, 0, 0⟩),
         ExecStep.printMsg Msg.noneInstalledMatched] :=
  exec_missing_binary_stops _ _ _ _ _ (by decide) (by decide)

/-- C6. A candidate without a checksum-manifest location, and likewise a
manifest that ends without a record for the archive base name, produce the
visible "No checksum found" warning and install proceeds to extraction and
the success message; neither condition is fatal. -/
theorem no_checksum_proceeds (e : Env) (t : TfVersion) :
    (t.ChecksumURL = none →
       Step.printMsg Msg.noChecksumFound ∈ installCandidate e t
       ∧ Step.printMsg (Msg.installed t.Version) ∈ installCandidate e t
       ∧ Step.fatalError ∉ installCandidate e t)
    ∧ (∀ cu, t.ChecksumURL = some cu →
        (∀ r ∈ e.manifest cu, skipsRecord (pathBase t.URL) r = true) →
        Step.printMsg Msg.noChecksumFound ∈ installCandidate e t
        ∧ Step.printMsg (Msg.installed t.Version) ∈ installCandidate e t
        ∧ Step.fatalError ∉ installCandidate e t) := by
  constructor
  · intro hcu
    refine proceed_mems e t ?_ ?_
    · rw [verifySteps, hcu]
    · rw [verifySteps, hcu]
      exact List.mem_singleton_self _
  · intro cu hcu hskips
    obtain ⟨ho, hm⟩ :=
      scanManifest_skips (e.digest t.URL) (pathBase t.URL) (e.manifest cu) hskips
    refine proceed_mems e t ?_ ?_
    · rw [verifySteps, hcu]; exact ho
    · rw [verifySteps, hcu]; exact hm

/-- C6 witness: a manifest holding only a record for another platform and
a malformed record; install warns and still extracts. -/
theorem no_checksum_proceeds_witness :
    Step.printMsg Msg.noChecksumFound ∈ installCandidate envNoRecord tfNoRecord
    ∧ Step.printMsg (Msg.installed tfNoRecord.Version)
        ∈ installCandidate envNoRecord tfNoRecord
    ∧ Step.fatalError ∉ installCandidate envNoRecord tfNoRecord :=
  (no_checksum_proceeds envNoRecord tfNoRecord).2 "sums" rfl (by decide)

/-- Any unparseable entry among the install-root directory entries makes
the whole scan return the fatal outcome. -/
theorem scanInstalled_eq_none :
    ∀ (entries : List String), (∃ x ∈ entries, NewVersion x = none) →
      scanInstalled entries = none := by
  intro entries
  induction entries with
  | nil => intro h; simp at h
  | cons y rest ih =>
    intro h
    rcases h with ⟨x, hx, hpx⟩
    rcases List.mem_cons.mp hx with rfl | hmem
    · simp [scanInstalled, hpx]
    · cases hy : NewVersion y with
      | none => simp [scanInstalled, hy]
      | some v => simp [scanInstalled, hy, ih ⟨x, hmem, hpx⟩]

/-- C7. A directory entry of the install root whose name fails to parse as
a Version is fatal: no InstalledVersion set is returned and the whole exec
run terminates with the fatal step, never silently skipping the entry. -/
theorem unparseable_entry_fatal (entries : List String) (x : String)
    (hx : x ∈ entries) (hpx : NewVersion x = none) :
    scanInstalled entries = none
    ∧ ∀ (binPresent : GoVersion → Bool) (c : Constraints) (args : List String),
        exec binPresent entries c args = [ExecStep.fatalError] := by
  have hscan : scanInstalled entries = none := scanInstalled_eq_none entries ⟨x, hx, hpx⟩
  exact ⟨hscan, fun binPresent c args => by simp [exec, hscan]⟩

/-- C7 witness: the entry "not-a-version" next to a parseable entry is
fatal for the scan and for exec. -/
theorem unparseable_entry_fatal_witness :
    scanInstalled ["1.0.0", "not-a-version"] = none
    ∧ exec (fun _ => true) ["1.0.0", "not-a-version"] none [] = [ExecStep.fatalError] := by
  obtain ⟨h1, h2⟩ := unparseable_entry_fatal ["1.0.0", "not-a-version"]
    "not-a-version" (by decide) (by decide)
  exact ⟨h1, h2 (fun _ => true) none []⟩

/-- C8. An empty required-version string yields the nil constraint, and
the nil constraint accepts every Version: install selection reduces to the
head of the descending order, and the exec loop handles the first
installed version immediately. -/
theorem absent_constraint_accepts_all :
    getConstraints "" = some none
    ∧ (∀ v : GoVersion, Constraints.Check none v = true)
    ∧ (∀ l : List TfVersion, installSelect l none = (sortDsc l).head?)
    ∧ ∀ (binPresent : GoVersion → Bool) (args : List String) (t : TfVersion)
        (rest : List TfVersion),
        execFrom none binPresent args (t :: rest)
          = if binPresent t.Version then
              [ExecStep.execBinary t.Version ("terraform" :: args)]
            else
              [ExecStep.printMsg (Msg.binaryMissing t.Version),
               ExecStep.printMsg Msg.noneInstalledMatched] := by
  refine ⟨rfl, fun v => rfl, ?_, ?_⟩
  · intro l
    cases h : sortDsc l with
    | nil => simp [installSelect, h]
    | cons t rest => simp [installSelect, h, List.find?, Constraints.Check]
  · intro binPresent args t rest
    simp [execFrom, Constraints.Check]

/-- C9. Invoked under a name other than terraform with a second argv entry
that is none of the three subcommands, main dispatches nothing: it prints
nothing itself, runs no subcommand and exits with status 0. -/
theorem unknown_subcommand_noop (arg0 cmd : String) (rest : List String)
    (h0 : pathBase arg0 ≠ "terraform") (h1 : cmd ≠ "list")
    (h2 : cmd ≠ "install") (h3 : cmd ≠ "exec") :
    mainDispatch arg0 (cmd :: rest) = MainAction.noAction
    ∧ mainPrints MainAction.noAction = []
    ∧ mainExit MainAction.noAction = 0 := by
  refine ⟨?_, rfl, rfl⟩
  simp [mainDispatch, h0, h1, h2, h3]

/-- C9 witness: "tvm status". -/
theorem unknown_subcommand_noop_witness :
    mainDispatch "tvm" ["status"] = MainAction.noAction
    ∧ mainPrints MainAction.noAction = []
    ∧ mainExit MainAction.noAction = 0 :=
  unknown_subcommand_noop "tvm" "status" [] (by decide) (by decide)
    (by decide) (by decide)

/-- C10. Install never skips a selected candidate: the existing-directory
check only suppresses the mkdir step, and the rest of the trace - the
download, the verification and the extraction that overwrites the binary -
is present and entirely independent of whether the version directory
already exists. -/
theorem install_never_skips (e : Env) (t : TfVersion) :
    installCandidate e t
      = (if e.dirExists t.Version then [] else [Step.mkdir t.Version])
        ++ installBody e t
    ∧ Step.download t.URL ∈ installCandidate e t
    ∧ ∀ d : GoVersion → Bool,
        installBody { e with dirExists := d } t = installBody e t := by
  refine ⟨rfl, ?_, fun d => rfl⟩
  exact List.mem_append_right _ (List.mem_cons_self _ _)

end Tvm
